import Mathlib

/-!
Verification of the core aggregation pipeline of `src/app.py` (an NFL news
dashboard): RSS fetch with error isolation (`FeedFetcher`), record
normalization (trimming, timestamp resolution, recency filter, HTML
cleaning), hash-based deduplication and keyword-based team extraction
(`DataProcessor`), and the final aggregation `fetch_all_news`.

Python strings are modelled as Lean `String`s (manipulated through their
`List Char` data), Python `datetime` values as `Int` epoch seconds (the
conversion from a `struct_time` tuple mirrors CPython's proleptic-Gregorian
`_ymd2ord`), and the MD5 digest used for deduplication as a universally
quantified function of the hashed text, since every property proved here
holds for an arbitrary digest function.
-/

/-! ### Python string primitives -/

/-- The ASCII whitespace characters stripped by Python's `str.strip()` /
split on by `str.split()`. -/
def isPySpace (c : Char) : Bool :=
  c = ' ' || c = '\t' || c = '\n' || c = '\r' || c = '\x0b' || c = '\x0c'

/-- Left strip: drop leading whitespace. -/
def lstripL (l : List Char) : List Char := l.dropWhile isPySpace

/-- Right strip: drop trailing whitespace. -/
def rstripL (l : List Char) : List Char := (l.reverse.dropWhile isPySpace).reverse

/-- Python `str.strip()` on the character list. -/
def pyStripL (l : List Char) : List Char := rstripL (lstripL l)

/-- Python `str.strip()`. -/
def pyStrip (s : String) : String := ⟨pyStripL s.data⟩

/-- Python `str.upper()` (ASCII range, which covers every keyword in the
source's tables). -/
def pyUpper (s : String) : String := ⟨s.data.map Char.toUpper⟩

/-- Does `nd` occur at the head of the list? -/
def leadsWith : List Char → List Char → Bool
  | [], _ => true
  | _ :: _, [] => false
  | a :: as, b :: bs => a = b && leadsWith as bs

/-- Python's substring test `nd in hay` on character lists. -/
def occursInL (nd : List Char) : List Char → Bool
  | [] => leadsWith nd []
  | c :: rest => leadsWith nd (c :: rest) || occursInL nd rest

/-- Python's substring test `needle in haystack`. -/
def occursIn (needle haystack : String) : Bool := occursInL needle.data haystack.data

/-- Python `str.split()` with no separator: split on whitespace runs,
discarding empty pieces.  `acc` holds the (reversed) word being read. -/
def splitWsAux : List Char → List Char → List (List Char)
  | [], acc => if acc.isEmpty then [] else [acc.reverse]
  | c :: rest, acc =>
    if isPySpace c then
      if acc.isEmpty then splitWsAux rest [] else acc.reverse :: splitWsAux rest []
    else splitWsAux rest (c :: acc)

/-- Python `' '.flatten(words)`. -/
def joinSpaceL : List (List Char) → List Char
  | [] => []
  | [w] => w
  | w :: ws => w ++ ' ' :: joinSpaceL ws

/-- `' '.flatten(text.split())`: collapse whitespace runs to single spaces and
trim the ends. -/
def collapseWsL (l : List Char) : List Char := joinSpaceL (splitWsAux l [])

/-- Scan for the first `'>'`; on success return the characters after it.
Used for the regex `<[^>]+>`: the character class excludes `'>'`, so a
match starting at a `'<'` must end at the first following `'>'`. -/
def afterClose : List Char → Option (List Char)
  | [] => none
  | c :: rest => if c = '>' then some rest else afterClose rest

/-- At a `'<'`, the regex `<[^>]+>` matches exactly when at least one
non-`'>'` character precedes the next `'>'`; return the remainder after
the match. -/
def tagRemainder (l : List Char) : Option (List Char) :=
  match l with
  | [] => none
  | c :: rest => if c = '>' then none else afterClose rest

theorem afterClose_length {l r : List Char} (h : afterClose l = some r) :
    r.length < l.length := by
  induction l with
  | nil => simp [afterClose] at h
  | cons c rest ih =>
    simp only [afterClose] at h
    split at h
    · injection h with h'
      subst h'
      simp only [List.length_cons]
      omega
    · have := ih h
      simp only [List.length_cons]
      omega

theorem tagRemainder_length {l r : List Char} (h : tagRemainder l = some r) :
    r.length < l.length := by
  match l with
  | [] => simp [tagRemainder] at h
  | c :: rest =>
    by_cases hc : c = '>'
    · simp [tagRemainder, hc] at h
    · simp only [tagRemainder, hc, if_false] at h
      have := afterClose_length h
      simp only [List.length_cons]
      omega

/-- `re.sub(r'<[^>]+>', '', text)` as the regex engine performs it: remove
the leftmost match of `<[^>]+>`, continue after it; a `'<'` with no
qualifying `'>'` stays.  (Reference semantics; `stripTagsL` below is an
equivalent single-pass version that the kernel can evaluate, see
`stripTagsL_eq_match`.) -/
def stripTagsMatch : List Char → List Char
  | [] => []
  | c :: rest =>
    if c = '<' then
      match h : tagRemainder rest with
      | some rest' => stripTagsMatch rest'
      | none => c :: stripTagsMatch rest
    else c :: stripTagsMatch rest
termination_by l => l.length
decreasing_by
  all_goals simp only [List.length_cons]
  all_goals try have hlt := tagRemainder_length h
  all_goals omega

/-- Single left-to-right pass for `re.sub(r'<[^>]+>', '', text)`.  In
normal mode (`none`) characters pass through until a `'<'`; in tag mode
(`some buf`) characters accumulate (reversed) in `buf` until the first
`'>'`: a non-empty buffer completes a match (drop it), an empty buffer
means `<>`, which the regex does not match (emit both); at end of input an
open buffer is flushed unchanged. -/
def stripTagsGo : Option (List Char) → List Char → List Char
  | none, [] => []
  | none, c :: rest =>
    if c = '<' then stripTagsGo (some []) rest else c :: stripTagsGo none rest
  | some buf, [] => '<' :: buf.reverse
  | some buf, c :: rest =>
    if c = '>' then
      if buf.isEmpty then '<' :: '>' :: stripTagsGo none rest
      else stripTagsGo none rest
    else stripTagsGo (some (c :: buf)) rest

/-- `re.sub(r'<[^>]+>', '', text)` on the character list. -/
def stripTagsL (l : List Char) : List Char := stripTagsGo none l

theorem afterClose_eq_none {l : List Char} : afterClose l = none ↔ '>' ∉ l := by
  induction l with
  | nil => simp [afterClose]
  | cons c rest ih =>
    by_cases hc : c = '>'
    · subst hc
      simp [afterClose]
    · simp [afterClose, hc, ih, Ne.symm hc]

theorem stripTagsMatch_nil : stripTagsMatch [] = [] := by
  rw [stripTagsMatch]

theorem stripTagsMatch_cons_of_ne (c : Char) (rest : List Char) (hc : c ≠ '<') :
    stripTagsMatch (c :: rest) = c :: stripTagsMatch rest := by
  rw [stripTagsMatch, if_neg hc]

theorem stripTagsMatch_cons_lt (rest : List Char) :
    stripTagsMatch ('<' :: rest)
      = match tagRemainder rest with
        | some rest' => stripTagsMatch rest'
        | none => '<' :: stripTagsMatch rest := by
  rw [stripTagsMatch, if_pos rfl]
  cases htr : tagRemainder rest
  · rfl
  · rfl

theorem stripTagsMatch_of_no_gt : ∀ (l : List Char), '>' ∉ l → stripTagsMatch l = l
  | [], _ => stripTagsMatch_nil
  | c :: rest, hl => by
    have hrest : '>' ∉ rest := fun h => hl (List.mem_cons_of_mem _ h)
    by_cases hc : c = '<'
    · subst hc
      rw [stripTagsMatch_cons_lt]
      have ht : tagRemainder rest = none := by
        cases rest with
        | nil => rfl
        | cons d rest' =>
          simp only [tagRemainder]
          rw [if_neg (show d ≠ '>' from fun h =>
            hrest (h ▸ List.mem_cons_self _ _))]
          exact afterClose_eq_none.mpr (fun h => hrest (List.mem_cons_of_mem _ h))
      rw [ht]
      exact congrArg (List.cons '<') (stripTagsMatch_of_no_gt rest hrest)
    · rw [stripTagsMatch_cons_of_ne c rest hc]
      exact congrArg (List.cons c) (stripTagsMatch_of_no_gt rest hrest)
termination_by l => l.length
decreasing_by
  all_goals simp only [List.length_cons]
  all_goals omega

theorem stripTagsGo_some_of_ne_nil :
    ∀ (rest buf : List Char), buf ≠ [] →
      stripTagsGo (some buf) rest
        = match afterClose rest with
          | some r => stripTagsGo none r
          | none => '<' :: buf.reverse ++ rest := by
  intro rest
  induction rest with
  | nil =>
    intro buf _
    simp [stripTagsGo, afterClose]
  | cons c rest' ih =>
    intro buf hbuf
    by_cases hc : c = '>'
    · subst hc
      have hbe : buf.isEmpty = false := by
        cases buf with
        | nil => exact absurd rfl hbuf
        | cons b bs => rfl
      simp [stripTagsGo, afterClose, hbe]
    · rw [show stripTagsGo (some buf) (c :: rest')
          = stripTagsGo (some (c :: buf)) rest' by simp [stripTagsGo, hc]]
      rw [ih (c :: buf) (by simp)]
      simp only [afterClose, if_neg hc]
      cases hac : afterClose rest' with
      | some r => rfl
      | none => simp

theorem stripTagsGo_none_eq : ∀ (l : List Char), stripTagsGo none l = stripTagsMatch l
  | [] => stripTagsMatch_nil.symm
  | c :: rest => by
    by_cases hc : c = '<'
    · subst hc
      rw [stripTagsMatch_cons_lt,
        show stripTagsGo none ('<' :: rest) = stripTagsGo (some []) rest by
          simp [stripTagsGo]]
      cases rest with
      | nil =>
        simp [stripTagsGo, tagRemainder, stripTagsMatch_nil]
      | cons d rest' =>
        by_cases hd : d = '>'
        · subst hd
          rw [show stripTagsGo (some []) ('>' :: rest')
              = '<' :: '>' :: stripTagsGo none rest' by simp [stripTagsGo]]
          simp only [tagRemainder, if_pos rfl]
          rw [stripTagsMatch_cons_of_ne '>' rest' (by decide)]
          exact congrArg (fun t => '<' :: '>' :: t) (stripTagsGo_none_eq rest')
        · rw [show stripTagsGo (some []) (d :: rest')
              = stripTagsGo (some [d]) rest' by simp [stripTagsGo, hd]]
          rw [stripTagsGo_some_of_ne_nil rest' [d] (by simp)]
          simp only [tagRemainder, if_neg hd]
          cases hac : afterClose rest' with
          | some r => exact stripTagsGo_none_eq r
          | none =>
            have hng : '>' ∉ d :: rest' := by
              intro hmem
              rcases List.mem_cons.mp hmem with h | h
              · exact hd h.symm
              · exact (afterClose_eq_none.mp hac) h
            rw [stripTagsMatch_of_no_gt (d :: rest') hng]
            simp
    · rw [stripTagsMatch_cons_of_ne c rest hc,
        show stripTagsGo none (c :: rest) = c :: stripTagsGo none rest by
          simp [stripTagsGo, hc]]
      exact congrArg (List.cons c) (stripTagsGo_none_eq rest)
termination_by l => l.length
decreasing_by
  all_goals simp only [List.length_cons]
  all_goals try have hlt := afterClose_length hac
  all_goals omega

/-- The single-pass tag stripper agrees with the leftmost-match reference
semantics of `re.sub(r'<[^>]+>', '', text)`. -/
theorem stripTagsL_eq_match (l : List Char) : stripTagsL l = stripTagsMatch l :=
  stripTagsGo_none_eq l

/-! ### Python `datetime` model

`datetime` values are modelled as epoch seconds (`Int`).  `datetime(*t[:6])`
on a `struct_time`-like tuple succeeds exactly when the six leading fields
form a valid proleptic-Gregorian date-time with `1 <= year <= 9999`; the
epoch value mirrors CPython's `_ymd2ord` (ordinal of 1970-01-01 is 719163,
so `719162` full days precede the epoch). -/

/-- Gregorian leap year. -/
def isLeapYear (y : Int) : Bool := y % 4 = 0 && (y % 100 ≠ 0 || y % 400 = 0)

/-- Number of days in month `mo` of year `y` (for `1 <= mo <= 12`). -/
def daysInMonth (y mo : Int) : Int :=
  if mo = 1 then 31
  else if mo = 2 then (if isLeapYear y then 29 else 28)
  else if mo = 3 then 31
  else if mo = 4 then 30
  else if mo = 5 then 31
  else if mo = 6 then 30
  else if mo = 7 then 31
  else if mo = 8 then 31
  else if mo = 9 then 30
  else if mo = 10 then 31
  else if mo = 11 then 30
  else 31

/-- Days in the years strictly before year `y` (CPython's `_days_before_year`). -/
def daysBeforeYear (y : Int) : Int :=
  365 * (y - 1) + (y - 1) / 4 - (y - 1) / 100 + (y - 1) / 400

/-- Days in year `y` strictly before month `mo` (CPython's `_days_before_month`). -/
def daysBeforeMonth (y mo : Int) : Int :=
  (if mo ≤ 1 then 0
   else if mo = 2 then 31
   else if mo = 3 then 59
   else if mo = 4 then 90
   else if mo = 5 then 120
   else if mo = 6 then 151
   else if mo = 7 then 181
   else if mo = 8 then 212
   else if mo = 9 then 243
   else if mo = 10 then 273
   else if mo = 11 then 304
   else 334)
  + (if 2 < mo && isLeapYear y then 1 else 0)

/-- Epoch seconds of a valid `datetime(y, mo, d, h, mi, s)`. -/
def epochOf (y mo d h mi s : Int) : Int :=
  (daysBeforeYear y + daysBeforeMonth y mo + (d - 1) - 719162) * 86400
    + h * 3600 + mi * 60 + s

/-- `datetime(y, mo, d, h, mi, s)`: `some` epoch seconds when the fields are
in range (as CPython validates them), `none` when the constructor raises. -/
def pyDatetimeFields (y mo d h mi s : Int) : Option Int :=
  if 1 ≤ y ∧ y ≤ 9999 ∧ 1 ≤ mo ∧ mo ≤ 12 ∧ 1 ≤ d ∧ d ≤ daysInMonth y mo
      ∧ 0 ≤ h ∧ h ≤ 23 ∧ 0 ≤ mi ∧ mi ≤ 59 ∧ 0 ≤ s ∧ s ≤ 59 then
    some (epochOf y mo d h mi s)
  else none

/-- `datetime(*t[:6])` on a `struct_time`-like tuple `t`, given as a list:
fewer than three leading fields is a `TypeError` (`none`), out-of-range
fields are a `ValueError` (`none`); trailing fields past the sixth are
ignored and missing hour/minute/second fields default to `0`. -/
def pyDatetime : List Int → Option Int
  | y :: mo :: d :: rest =>
    pyDatetimeFields y mo d (rest.headD 0) ((rest.drop 1).headD 0) ((rest.drop 2).headD 0)
  | _ => none

/-- Python truthiness of an optional tuple: `None` and the empty tuple are
falsy. -/
def truthyTuple : Option (List Int) → Bool
  | some (_ :: _) => true
  | _ => false

/-- Python `a or b` on optional tuples. -/
def pyOrTuple (a b : Option (List Int)) : Option (List Int) :=
  if truthyTuple a then a else b

/-- Lines 87-94 of `src/app.py`:

    pub_parsed = entry.get('published_parsed') or entry.get('updated_parsed')
    if pub_parsed:
        try:
            pub_date = datetime(*pub_parsed[:6])
        except:
            pub_date = datetime.now()
    else:
        pub_date = datetime.now()

(`pyDatetime` is `none` on the empty tuple, so the truthiness test and the
`try` collapse into one `getD`). -/
def resolveTimestamp (published_parsed updated_parsed : Option (List Int)) (now : Int) : Int :=
  match pyOrTuple published_parsed updated_parsed with
  | some p => (pyDatetime p).getD now
  | none => now

/-! ### `FeedFetcher` (lines 48-129 of `src/app.py`) -/

/-- One feedparser entry, with the fields `fetch_single_feed` reads.
Absent `title`/`link` are the code's `entry.get(..., '')` defaults. -/
structure Entry where
  title : String := ""
  link : String := ""
  published_parsed : Option (List Int) := none
  updated_parsed : Option (List Int) := none
  summary : Option String := none
  description : Option String := none
deriving DecidableEq

/-- The observable outcome of `feedparser.parse` on one URL: an exception
anywhere in the fetch (`failure`), or a parsed feed with its entry list
(malformed payloads surface as an empty entry list). -/
inductive FetchOutcome where
  | failure : FetchOutcome
  | success : List Entry → FetchOutcome
deriving DecidableEq

/-- A normalized article as appended to `articles` in `fetch_single_feed`. -/
structure Article where
  title : String
  link : String
  published : Int
  source : String
  summary : String
deriving DecidableEq

/-- `FeedFetcher` state: construction parameters plus the two counters. -/
structure FeedFetcher where
  days_lookback : Int
  max_entries : Nat
  cutoff_date : Int
  success_count : Nat
  error_count : Nat
deriving DecidableEq

/-- `FeedFetcher.__init__`: `cutoff_date = datetime.now() - timedelta(days)`,
with `now0` the construction-time clock and `timedelta(days=d)` equal to
`d * 86400` seconds. -/
def FeedFetcher.init (now0 : Int) (days_lookback : Int) (max_entries : Nat) : FeedFetcher :=
  { days_lookback := days_lookback
    max_entries := max_entries
    cutoff_date := now0 - days_lookback * 86400
    success_count := 0
    error_count := 0 }

/-- `FeedFetcher.clean_html` (lines 58-66): strip `<[^>]+>` matches,
collapse whitespace, truncate to 300 characters plus `'...'`. -/
def clean_html (text : String) : String :=
  if text = "" then ""
  else
    let t := collapseWsL (stripTagsL text.data)
    if t.length > 300 then ⟨t.take 300 ++ ('.' :: '.' :: '.' :: [])⟩ else ⟨t⟩

/-- The body of the entry loop in `fetch_single_feed` (lines 80-106):
`none` when the entry is skipped (`continue` or recency filter), `some`
article otherwise.  `now` is the wall clock during the loop. -/
def FeedFetcher.processEntry (f : FeedFetcher) (now : Int) (source_name : String)
    (e : Entry) : Option Article :=
  let title := pyStrip e.title
  if title = "" ∨ e.link = "" then none
  else
    let pub_date := resolveTimestamp e.published_parsed e.updated_parsed now
    if f.cutoff_date ≤ pub_date then
      some { title := title
             link := e.link
             published := pub_date
             source := source_name
             summary := clean_html ((e.summary).getD ((e.description).getD "")) }
    else none

/-- `FeedFetcher.fetch_single_feed` (lines 68-113): on an exception or an
empty entry list, bump `error_count` and contribute no articles; otherwise
process the first `max_entries` entries and bump `success_count`. -/
def FeedFetcher.fetch_single_feed (f : FeedFetcher) (now : Int) (outcome : FetchOutcome)
    (source_name : String) : FeedFetcher × List Article :=
  match outcome with
  | .failure => ({ f with error_count := f.error_count + 1 }, [])
  | .success entries =>
    if entries.isEmpty then ({ f with error_count := f.error_count + 1 }, [])
    else
      ({ f with success_count := f.success_count + 1 },
        (entries.take f.max_entries).filterMap (f.processEntry now source_name))

/-- `FeedFetcher.fetch_multiple_feeds` (lines 115-129): gather every feed's
articles into one list, threading the counters.  The list order of `feeds`
stands for the (nondeterministic) `as_completed` completion order. -/
def FeedFetcher.fetch_multiple_feeds (f : FeedFetcher) (now : Int)
    (feeds : List (FetchOutcome × String)) : FeedFetcher × List Article :=
  match feeds with
  | [] => (f, [])
  | s :: rest =>
    let fa := f.fetch_single_feed now s.1 s.2
    let fr := fa.1.fetch_multiple_feeds now rest
    (fr.1, fa.2 ++ fr.2)

/-! ### `DataProcessor` (lines 133-201 of `src/app.py`)

`create_hash` is `hashlib.md5(text.encode()).hexdigest()`, a pure function
of the hashed text; it is modelled as a universally quantified
`h : String -> String`, so every theorem below holds for the actual MD5
digest in particular. -/

/-- One row of the news DataFrame built in `fetch_all_news`. -/
structure NewsItem where
  team : String
  headline : String
  link : String
  date : Int
  source : String
  summary : String
deriving DecidableEq

/-- The recursion behind `drop_duplicates(subset=['hash'])` (keep the first
row for each hash value): `seen` is the set of hash values already kept. -/
def dedupGo (h : String → String) (seen : List String) : List NewsItem → List NewsItem
  | [] => []
  | x :: xs =>
    if h x.headline ∈ seen then dedupGo h seen xs
    else x :: dedupGo h (h x.headline :: seen) xs

/-- `DataProcessor.deduplicate_dataframe` (lines 141-150): add a column of
`create_hash(headline)`, drop later rows with a duplicate hash, drop the
column again. -/
def deduplicate_dataframe (h : String → String) (df : List NewsItem) : List NewsItem :=
  dedupGo h [] df

/-- The ordered `team_keywords` table of
`DataProcessor.extract_team_from_title` (lines 157-191), in source order
(Python dicts iterate in insertion order). -/
def team_keywords : List (String × String) :=
  [("CARDINALS", "Arizona Cardinals"),
   ("FALCONS", "Atlanta Falcons"),
   ("RAVENS", "Baltimore Ravens"),
   ("BILLS", "Buffalo Bills"),
   ("PANTHERS", "Carolina Panthers"),
   ("BEARS", "Chicago Bears"),
   ("BENGALS", "Cincinnati Bengals"),
   ("BROWNS", "Cleveland Browns"),
   ("COWBOYS", "Dallas Cowboys"),
   ("BRONCOS", "Denver Broncos"),
   ("LIONS", "Detroit Lions"),
   ("PACKERS", "Green Bay Packers"),
   ("TEXANS", "Houston Texans"),
   ("COLTS", "Indianapolis Colts"),
   ("JAGUARS", "Jacksonville Jaguars"),
   ("CHIEFS", "Kansas City Chiefs"),
   ("RAIDERS", "Las Vegas Raiders"),
   ("CHARGERS", "Los Angeles Chargers"),
   ("RAMS", "Los Angeles Rams"),
   ("DOLPHINS", "Miami Dolphins"),
   ("VIKINGS", "Minnesota Vikings"),
   ("PATRIOTS", "New England Patriots"),
   ("SAINTS", "New Orleans Saints"),
   ("GIANTS", "New York Giants"),
   ("JETS", "New York Jets"),
   ("EAGLES", "Philadelphia Eagles"),
   ("STEELERS", "Pittsburgh Steelers"),
   ("49ERS", "San Francisco 49ers"),
   ("SEAHAWKS", "Seattle Seahawks"),
   ("BUCCANEERS", "Tampa Bay Buccaneers"),
   ("BUCS", "Tampa Bay Buccaneers"),
   ("TITANS", "Tennessee Titans"),
   ("COMMANDERS", "Washington Commanders")]

/-- `DataProcessor.extract_team_from_title` (lines 152-201): scan the
upper-cased title against `team_keywords` in order (first match wins), then
against the configured `teams` list, else the sentinel `'NFL General'`. -/
def extract_team_from_title (text : String) (teams : List String) : String :=
  let text_upper := pyUpper text
  match team_keywords.find? (fun kw => occursIn kw.1 text_upper) with
  | some kw => kw.2
  | none =>
    match teams.find? (fun team => occursIn (pyUpper team) text_upper) with
    | some team => team
    | none => "NFL General"

/-! ### `fetch_all_news` (lines 205-254 of `src/app.py`) -/

/-- Sort key of `df.sort_values('date', ascending=False)`: dates
non-increasing. -/
def dateDesc (a b : NewsItem) : Prop := b.date ≤ a.date

instance : DecidableRel dateDesc := fun a b => Int.decLe b.date a.date

instance : IsTotal NewsItem dateDesc := ⟨fun a b => le_total b.date a.date⟩

instance : IsTrans NewsItem dateDesc := ⟨fun _ _ _ hab hbc => le_trans hbc hab⟩

/-- The aggregation tail of `fetch_all_news` (lines 247-254): an empty
item collection yields an empty DataFrame, otherwise deduplicate and sort
by date descending.  (pandas' unstable quicksort is modelled by insertion
sort: the spec leaves the order within equal dates arbitrary.) -/
def aggregate (h : String → String) (news_items : List NewsItem) : List NewsItem :=
  if news_items.isEmpty then []
  else List.insertionSort dateDesc (deduplicate_dataframe h news_items)

/-- A general-feed article becomes a row with the team inferred from the
title (lines 220-229). -/
def articleToItem (teams : List String) (a : Article) : NewsItem :=
  { team := extract_team_from_title a.title teams
    headline := a.title
    link := a.link
    date := a.published
    source := a.source
    summary := a.summary }

/-- A team-feed article becomes a row with the team taken from the feed
(lines 237-245). -/
def articleToTeamItem (team : String) (a : Article) : NewsItem :=
  { team := team
    headline := a.title
    link := a.link
    date := a.published
    source := a.source
    summary := a.summary }

/-- The per-team fetch loop of `fetch_all_news` (lines 231-245), threading
the shared fetcher.  Each group is `(team, outcomes of that team's URLs)`. -/
def fetchTeamFeeds (f : FeedFetcher) (now : Int) :
    List (String × List FetchOutcome) → FeedFetcher × List NewsItem
  | [] => (f, [])
  | (team, urls) :: rest =>
    let fa := f.fetch_multiple_feeds now (urls.map (fun u => (u, team)))
    let fr := fetchTeamFeeds fa.1 now rest
    (fr.1, fa.2.map (articleToTeamItem team) ++ fr.2)

/-- `fetch_all_news` (lines 205-254): build one fetcher, fetch the general
feeds and every team's feeds, assemble the rows, then deduplicate and sort.
`now0` is the construction-time clock, `now` the clock during fetching,
`h` the `create_hash` digest. -/
def fetch_all_news (h : String → String) (now0 now days_lookback : Int)
    (teams : List String) (general : List (FetchOutcome × String))
    (teamFeeds : List (String × List FetchOutcome)) : List NewsItem :=
  let f := FeedFetcher.init now0 days_lookback 100
  let fg := f.fetch_multiple_feeds now general
  let generalItems := fg.2.map (articleToItem teams)
  let ft := fetchTeamFeeds fg.1 now teamFeeds
  aggregate h (generalItems ++ ft.2)

/-! ### Fetch-layer lemmas: failure isolation and counters -/

/-- A feed attempt that contributes nothing: an exception or a feed whose
entry list is empty (which covers malformed payloads). -/
def fetchFailed : FetchOutcome → Bool
  | .failure => true
  | .success entries => entries.isEmpty

theorem processEntry_congr (f g : FeedFetcher) (hc : f.cutoff_date = g.cutoff_date)
    (now : Int) (name : String) (e : Entry) :
    f.processEntry now name e = g.processEntry now name e := by
  simp only [FeedFetcher.processEntry, hc]

theorem fetch_single_feed_snd_congr (f g : FeedFetcher) (hc : f.cutoff_date = g.cutoff_date)
    (hm : f.max_entries = g.max_entries) (now : Int) (o : FetchOutcome) (name : String) :
    (f.fetch_single_feed now o name).2 = (g.fetch_single_feed now o name).2 := by
  have hpe : f.processEntry now name = g.processEntry now name :=
    funext (processEntry_congr f g hc now name)
  cases o with
  | failure => rfl
  | success entries =>
    simp only [FeedFetcher.fetch_single_feed, hm, hpe]
    split <;> rfl

theorem fetch_single_feed_fst (f : FeedFetcher) (now : Int) (o : FetchOutcome) (name : String) :
    (f.fetch_single_feed now o name).1.cutoff_date = f.cutoff_date
      ∧ (f.fetch_single_feed now o name).1.max_entries = f.max_entries
      ∧ (f.fetch_single_feed now o name).1.error_count
          = f.error_count + (if fetchFailed o then 1 else 0)
      ∧ (f.fetch_single_feed now o name).1.success_count
          = f.success_count + (if fetchFailed o then 0 else 1) := by
  cases o with
  | failure => simp [FeedFetcher.fetch_single_feed, fetchFailed]
  | success entries =>
    by_cases he : entries.isEmpty
    · simp [FeedFetcher.fetch_single_feed, fetchFailed, he]
    · simp [FeedFetcher.fetch_single_feed, fetchFailed, he]

theorem fetch_single_feed_failed (f : FeedFetcher) (now : Int) (o : FetchOutcome)
    (name : String) (ho : fetchFailed o = true) :
    (f.fetch_single_feed now o name).2 = [] := by
  cases o with
  | failure => rfl
  | success entries =>
    simp only [fetchFailed] at ho
    simp [FeedFetcher.fetch_single_feed, ho]

theorem fetch_multiple_feeds_spec (f : FeedFetcher) (now : Int)
    (feeds : List (FetchOutcome × String)) :
    (f.fetch_multiple_feeds now feeds).2
        = (feeds.map (fun s => (f.fetch_single_feed now s.1 s.2).2)).flatten
      ∧ (f.fetch_multiple_feeds now feeds).1.error_count
          = f.error_count + (feeds.filter (fun s => fetchFailed s.1)).length
      ∧ (f.fetch_multiple_feeds now feeds).1.success_count
          = f.success_count + (feeds.filter (fun s => !fetchFailed s.1)).length
      ∧ (f.fetch_multiple_feeds now feeds).1.cutoff_date = f.cutoff_date
      ∧ (f.fetch_multiple_feeds now feeds).1.max_entries = f.max_entries := by
  induction feeds generalizing f with
  | nil => simp [FeedFetcher.fetch_multiple_feeds]
  | cons s rest ih =>
    obtain ⟨hc, hm, he, hs⟩ := fetch_single_feed_fst f now s.1 s.2
    obtain ⟨ih1, ih2, ih3, ih4, ih5⟩ := ih (f.fetch_single_feed now s.1 s.2).1
    simp only [FeedFetcher.fetch_multiple_feeds]
    refine ⟨?_, ?_, ?_, ?_, ?_⟩
    · rw [List.map_cons, List.flatten_cons, ih1]
      congr 1
      congr 1
      apply List.map_congr_left
      intro x _
      exact fetch_single_feed_snd_congr _ _ hc hm now x.1 x.2
    · rw [ih2, he]
      by_cases hf : fetchFailed s.1 <;> simp [hf, List.filter_cons] <;> omega
    · rw [ih3, hs]
      by_cases hf : fetchFailed s.1 <;> simp [hf, List.filter_cons] <;> omega
    · rw [ih4, hc]
    · rw [ih5, hm]

/-- Claim C2: in a multi-feed fetch, a failing source (exception, malformed
payload, or zero entries) contributes the empty article list and one
`error_count` increment; the overall result is exactly the concatenation of
the per-source article lists, each computed independently of the other
sources, so sibling sources are unaffected.  (The model functions are
total: the Python code catches every exception inside `fetch_single_feed`,
and each source is fetched exactly once, with no retry.) -/
theorem fetch_isolation_C2 (f : FeedFetcher) (now : Int)
    (feeds : List (FetchOutcome × String)) :
    (f.fetch_multiple_feeds now feeds).2
        = (feeds.map (fun s => (f.fetch_single_feed now s.1 s.2).2)).flatten
      ∧ (∀ s ∈ feeds, fetchFailed s.1 = true → (f.fetch_single_feed now s.1 s.2).2 = [])
      ∧ (f.fetch_multiple_feeds now feeds).1.error_count
          = f.error_count + (feeds.filter (fun s => fetchFailed s.1)).length
      ∧ (f.fetch_multiple_feeds now feeds).1.success_count
          = f.success_count + (feeds.filter (fun s => !fetchFailed s.1)).length := by
  obtain ⟨h1, h2, h3, _, _⟩ := fetch_multiple_feeds_spec f now feeds
  exact ⟨h1, fun s _ ho => fetch_single_feed_failed f now s.1 s.2 ho, h2, h3⟩

/-- Witness for C2 at a concrete input: two failing sources (one raising,
one with an empty payload) and one succeeding source. -/
theorem fetch_isolation_C2_witness :
    ((FeedFetcher.init 0 7 100).fetch_multiple_feeds 0
        [(.failure, "a"), (.success [], "b"),
         (.success [{ title := "T", link := "L" }], "c")]).2
      = ((FeedFetcher.init 0 7 100).fetch_single_feed 0
          (.success [{ title := "T", link := "L" }]) "c").2
    ∧ ((FeedFetcher.init 0 7 100).fetch_single_feed 0 .failure "a").2 = []
    ∧ ((FeedFetcher.init 0 7 100).fetch_multiple_feeds 0
        [(.failure, "a"), (.success [], "b"),
         (.success [{ title := "T", link := "L" }], "c")]).1.error_count = 2 := by
  refine ⟨?_, ?_, ?_⟩
  · have h := (fetch_isolation_C2 (FeedFetcher.init 0 7 100) 0
      [(.failure, "a"), (.success [], "b"),
       (.success [{ title := "T", link := "L" }], "c")]).1
    rw [h]
    decide
  · exact (fetch_isolation_C2 (FeedFetcher.init 0 7 100) 0
      [(.failure, "a"), (.success [], "b"),
       (.success [{ title := "T", link := "L" }], "c")]).2.1
      (.failure, "a") (by decide) (by decide)
  · have h := (fetch_isolation_C2 (FeedFetcher.init 0 7 100) 0
      [(.failure, "a"), (.success [], "b"),
       (.success [{ title := "T", link := "L" }], "c")]).2.2.1
    rw [h]
    decide

/-! ### Timestamp resolution: the spec's chain vs the code's -/

/-- Modelled from the spec (timestamp resolution order): take the
structured publish timestamp if present and parseable, else the structured
updated timestamp if present and parseable, else the current time.  The
spec's step (3), a best-effort parse of a string-formatted date field, has
no correlate in the entry fields the code reads (the `*_parsed` structures
are already feedparser's parses of the string fields), so it is vacuous
here. -/
def specResolveTimestamp (published_parsed updated_parsed : Option (List Int))
    (now : Int) : Int :=
  match published_parsed.bind pyDatetime with
  | some t => t
  | none =>
    match updated_parsed.bind pyDatetime with
    | some t => t
    | none => now

/-- Claim C1 counterexample: an entry whose publish tuple is present but
unparseable (month 13) and whose updated tuple parses.  The spec's chain
resolves to the updated timestamp (2024-01-02), the code resolves to `now`:
the Python `or` chooses between the two raw fields by truthiness before any
parse is attempted, so a present-but-unparseable publish tuple never falls
back to the updated tuple. -/
theorem resolveTimestamp_C1_counterexample :
    resolveTimestamp (some [2024, 13, 1, 0, 0, 0]) (some [2024, 1, 2, 0, 0, 0]) 0 = 0
    ∧ pyDatetime [2024, 1, 2, 0, 0, 0] = some 1704153600
    ∧ specResolveTimestamp (some [2024, 13, 1, 0, 0, 0]) (some [2024, 1, 2, 0, 0, 0]) 0
        = 1704153600
    ∧ resolveTimestamp (some [2024, 13, 1, 0, 0, 0]) (some [2024, 1, 2, 0, 0, 0]) 0
        ≠ specResolveTimestamp (some [2024, 13, 1, 0, 0, 0])
            (some [2024, 1, 2, 0, 0, 0]) 0 := by
  decide

/-- Claim C1 (amended): the raw field is chosen first, by Python
truthiness — `published_parsed` if present and non-empty, else
`updated_parsed` — and only then parsed; if the chosen tuple parses, its
value is used, otherwise the current time, so a present-but-unparseable
publish tuple resolves to `now` without consulting the updated tuple, and
no other date source is consulted. -/
theorem resolveTimestamp_C1_amended (pub upd : Option (List Int)) (now : Int) :
    (∀ p t, pub = some p → pyDatetime p = some t → resolveTimestamp pub upd now = t)
    ∧ (∀ p, pub = some p → p ≠ [] → pyDatetime p = none →
        resolveTimestamp pub upd now = now)
    ∧ ((pub = none ∨ pub = some []) →
        (∀ u t, upd = some u → pyDatetime u = some t → resolveTimestamp pub upd now = t)
        ∧ (upd.bind pyDatetime = none → resolveTimestamp pub upd now = now)) := by
  refine ⟨?_, ?_, ?_⟩
  · rintro p t rfl hp
    match p with
    | [] => simp [pyDatetime] at hp
    | c :: cs => simp [resolveTimestamp, pyOrTuple, truthyTuple, hp]
  · rintro p rfl hne hp
    match p, hne with
    | c :: cs, _ => simp [resolveTimestamp, pyOrTuple, truthyTuple, hp]
  · intro hpub
    constructor
    · rintro u t rfl hu
      rcases hpub with rfl | rfl <;>
        simp [resolveTimestamp, pyOrTuple, truthyTuple, hu]
    · intro hb
      rcases hpub with rfl | rfl <;> rcases upd with _ | u
      · rfl
      · simp only [Option.some_bind] at hb
        simp [resolveTimestamp, pyOrTuple, truthyTuple, hb]
      · rfl
      · simp only [Option.some_bind] at hb
        simp [resolveTimestamp, pyOrTuple, truthyTuple, hb]

/-- Witness for the amended C1 at a concrete parseable publish tuple. -/
theorem resolveTimestamp_C1_amended_witness :
    resolveTimestamp (some [2024, 1, 2, 0, 0, 0]) none 5 = 1704153600 :=
  (resolveTimestamp_C1_amended (some [2024, 1, 2, 0, 0, 0]) none 5).1
    [2024, 1, 2, 0, 0, 0] 1704153600 rfl (by decide)

/-! ### Entry processing: recency filter and survivor invariants -/

theorem processEntry_eq_some (f : FeedFetcher) (now : Int) (name : String)
    (e : Entry) (a : Article) :
    f.processEntry now name e = some a ↔
      pyStrip e.title ≠ "" ∧ e.link ≠ ""
      ∧ f.cutoff_date ≤ resolveTimestamp e.published_parsed e.updated_parsed now
      ∧ a = { title := pyStrip e.title
              link := e.link
              published := resolveTimestamp e.published_parsed e.updated_parsed now
              source := name
              summary := clean_html ((e.summary).getD ((e.description).getD "")) } := by
  simp only [FeedFetcher.processEntry]
  by_cases h1 : pyStrip e.title = "" ∨ e.link = ""
  · rw [if_pos h1]
    constructor
    · intro h; cases h
    · rintro ⟨ht, hl, -, -⟩
      rcases h1 with h1 | h1
      · exact absurd h1 ht
      · exact absurd h1 hl
  · rw [if_neg h1]
    push_neg at h1
    by_cases h2 : f.cutoff_date ≤ resolveTimestamp e.published_parsed e.updated_parsed now
    · rw [if_pos h2]
      simp only [Option.some.injEq]
      constructor
      · intro h; exact ⟨h1.1, h1.2, h2, h.symm⟩
      · rintro ⟨-, -, -, rfl⟩; rfl
    · rw [if_neg h2]
      constructor
      · intro h; cases h
      · rintro ⟨-, -, hc, -⟩; exact absurd hc h2

theorem fetch_single_feed_success_snd (f : FeedFetcher) (now : Int) (name : String)
    (entries : List Entry) (hne : entries ≠ []) :
    (f.fetch_single_feed now (.success entries) name).2
      = (entries.take f.max_entries).filterMap (f.processEntry now name) := by
  have h : entries.isEmpty = false := by
    cases entries with
    | nil => exact absurd rfl hne
    | cons c cs => rfl
  simp [FeedFetcher.fetch_single_feed, h]

theorem mem_fetch_single_feed_snd (f : FeedFetcher) (now : Int) (name : String)
    (entries : List Entry) (a : Article) :
    a ∈ (f.fetch_single_feed now (.success entries) name).2 ↔
      ∃ e ∈ entries.take f.max_entries, f.processEntry now name e = some a := by
  cases entries with
  | nil =>
    simp [FeedFetcher.fetch_single_feed]
  | cons c cs =>
    rw [fetch_single_feed_success_snd f now name _ (by simp)]
    exact List.mem_filterMap

/-- Claim C3: the recency filter keeps an entry exactly when its resolved
timestamp is at least the cutoff `now0 - days * 86400` fixed at fetcher
construction: every emitted article's timestamp is at least the cutoff,
an entry resolving strictly before the cutoff is dropped, and an entry
resolving exactly at the cutoff (with a valid headline and link, within the
scanned `max_entries` prefix) is included. -/
theorem recency_filter_C3 (f : FeedFetcher) (now0 days now : Int) (maxE : Nat)
    (name : String) (entries : List Entry)
    (hf : f = FeedFetcher.init now0 days maxE) :
    f.cutoff_date = now0 - days * 86400
    ∧ (∀ a ∈ (f.fetch_single_feed now (.success entries) name).2,
        f.cutoff_date ≤ a.published)
    ∧ (∀ e, resolveTimestamp e.published_parsed e.updated_parsed now < f.cutoff_date →
        f.processEntry now name e = none)
    ∧ (∀ e ∈ entries.take f.max_entries, pyStrip e.title ≠ "" → e.link ≠ "" →
        resolveTimestamp e.published_parsed e.updated_parsed now = f.cutoff_date →
        ∃ a ∈ (f.fetch_single_feed now (.success entries) name).2,
          a.published = f.cutoff_date ∧ a.title = pyStrip e.title ∧ a.link = e.link) := by
  refine ⟨by rw [hf]; rfl, ?_, ?_, ?_⟩
  · intro a ha
    obtain ⟨e, -, hpe⟩ := (mem_fetch_single_feed_snd f now name entries a).mp ha
    obtain ⟨-, -, hle, rfl⟩ := (processEntry_eq_some f now name e a).mp hpe
    exact hle
  · intro e he
    simp only [FeedFetcher.processEntry]
    split
    · rfl
    · rw [if_neg (not_le.mpr he)]
  · intro e he ht hl hres
    refine ⟨{ title := pyStrip e.title
              link := e.link
              published := resolveTimestamp e.published_parsed e.updated_parsed now
              source := name
              summary := clean_html ((e.summary).getD ((e.description).getD "")) },
      ?_, hres, rfl, rfl⟩
    exact (mem_fetch_single_feed_snd f now name entries _).mpr
      ⟨e, he, (processEntry_eq_some f now name e _).mpr ⟨ht, hl, le_of_eq hres.symm, rfl⟩⟩

/-- Witness for C3 at a concrete boundary entry: lookback 7 days,
construction clock `1209600`, entry published 1970-01-08 (epoch `604800`),
exactly the cutoff. -/
theorem recency_filter_C3_witness :
    ∃ a ∈ ((FeedFetcher.init 1209600 7 100).fetch_single_feed 1209600
        (.success [{ title := "A", link := "L",
                     published_parsed := some [1970, 1, 8, 0, 0, 0] }]) "s").2,
      a.published = (FeedFetcher.init 1209600 7 100).cutoff_date
        ∧ a.title = pyStrip "A" ∧ a.link = "L" :=
  (recency_filter_C3 (FeedFetcher.init 1209600 7 100) 1209600 7 1209600 100 "s"
      [{ title := "A", link := "L", published_parsed := some [1970, 1, 8, 0, 0, 0] }]
      rfl).2.2.2
    { title := "A", link := "L", published_parsed := some [1970, 1, 8, 0, 0, 0] }
    (by decide) (by decide) (by decide) (by decide)

theorem resolveTimestamp_of_unparseable (pub upd : Option (List Int)) (now : Int)
    (hp : pub.bind pyDatetime = none) (hu : upd.bind pyDatetime = none) :
    resolveTimestamp pub upd now = now := by
  rcases pub with _ | p
  · rcases upd with _ | u
    · rfl
    · simp only [Option.some_bind] at hu
      simp [resolveTimestamp, pyOrTuple, truthyTuple, hu]
  · simp only [Option.some_bind] at hp
    match p with
    | [] =>
      rcases upd with _ | u
      · rfl
      · simp only [Option.some_bind] at hu
        simp [resolveTimestamp, pyOrTuple, truthyTuple, hu]
    | c :: cs => simp [resolveTimestamp, pyOrTuple, truthyTuple, hp]

theorem aggregate_sorted (h : String → String) (items : List NewsItem) :
    (aggregate h items).Pairwise dateDesc := by
  unfold aggregate
  split
  · exact List.Pairwise.nil
  · exact List.sorted_insertionSort dateDesc _

/-- Claim C4: an entry none of whose date fields parse resolves to the
current wall-clock time, hence (with a nonnegative lookback and a clock
that has not gone backwards since construction) always passes the recency
filter; and since the final sort is by date descending, every row placed
above a `now`-dated row is itself dated at least `now`. -/
theorem fallback_now_C4 (pub upd : Option (List Int)) (now0 days now : Int)
    (maxE : Nat) (name : String) (e : Entry) (h : String → String)
    (items : List NewsItem) :
    (pub.bind pyDatetime = none → upd.bind pyDatetime = none →
      resolveTimestamp pub upd now = now)
    ∧ (e.published_parsed.bind pyDatetime = none →
        e.updated_parsed.bind pyDatetime = none →
        0 ≤ days → now0 ≤ now → pyStrip e.title ≠ "" → e.link ≠ "" →
        ∃ a, (FeedFetcher.init now0 days maxE).processEntry now name e = some a
          ∧ a.published = now)
    ∧ (∀ i j : Nat, ∀ hij : i < j, ∀ hj : j < (aggregate h items).length,
        ((aggregate h items).get ⟨j, hj⟩).date = now →
        now ≤ ((aggregate h items).get ⟨i, Nat.lt_trans hij hj⟩).date) := by
  refine ⟨resolveTimestamp_of_unparseable pub upd now, ?_, ?_⟩
  · intro hp hu hd hnow ht hl
    have hres : resolveTimestamp e.published_parsed e.updated_parsed now = now :=
      resolveTimestamp_of_unparseable _ _ now hp hu
    have hcut : (FeedFetcher.init now0 days maxE).cutoff_date
        ≤ resolveTimestamp e.published_parsed e.updated_parsed now := by
      rw [hres]
      show now0 - days * 86400 ≤ now
      nlinarith
    exact ⟨_, (processEntry_eq_some _ now name e _).mpr ⟨ht, hl, hcut, rfl⟩, hres⟩
  · intro i j hij hj hdate
    have hs := List.pairwise_iff_get.mp (aggregate_sorted h items)
      ⟨i, Nat.lt_trans hij hj⟩ ⟨j, hj⟩ hij
    rw [← hdate]
    exact hs

/-- Witness for C4: a concrete entry with an unparseable publish tuple and
no updated tuple resolves to the fetch clock and survives the filter, and
in a concrete aggregate the row above the `now`-dated row is at least as
recent. -/
theorem fallback_now_C4_witness :
    (∃ a, (FeedFetcher.init 50 7 100).processEntry 60 "s"
        { title := "A", link := "L", published_parsed := some [2024, 13, 1, 0, 0, 0] }
        = some a ∧ a.published = 60)
    ∧ 100 ≤ ((aggregate id [⟨"t", "h1", "l1", 150, "s", ""⟩,
        ⟨"t", "h2", "l2", 100, "s", ""⟩, ⟨"t", "h3", "l3", 50, "s", ""⟩]).get
          ⟨0, Nat.lt_trans Nat.zero_lt_one (by decide)⟩).date := by
  constructor
  · exact (fallback_now_C4 none none 50 7 60 100 "s"
      { title := "A", link := "L", published_parsed := some [2024, 13, 1, 0, 0, 0] }
      id []).2.1 (by decide) (by decide) (by decide) (by decide) (by decide) (by decide)
  · exact (fallback_now_C4 none none 0 0 100 0 ""
      { title := "" } id
      [⟨"t", "h1", "l1", 150, "s", ""⟩, ⟨"t", "h2", "l2", 100, "s", ""⟩,
       ⟨"t", "h3", "l3", 50, "s", ""⟩]).2.2 0 1 Nat.zero_lt_one (by decide) (by decide)

/-- Claim C7 counterexample.  First: an entry whose link is a single space
survives normalization (the code checks the raw link for emptiness and
never strips it), so a survivor's link can be empty after trimming.
Second: with `max_entries = 1`, a second entry that is inside the lookback
window and has a valid headline and link is nevertheless dropped, so an
empty-after-trimming headline or link is not the only reason a within-window
entry is dropped. -/
theorem survivors_C7_counterexample :
    (((FeedFetcher.init 0 0 100).fetch_single_feed 0
        (.success [{ title := "A", link := " " }]) "s").2.map Article.link = [" "]
      ∧ pyStrip " " = "")
    ∧ (((FeedFetcher.init 0 0 1).fetch_single_feed 0
        (.success [{ title := "A", link := "LA" }, { title := "B", link := "LB" }])
          "s").2.map Article.title = ["A"]
      ∧ pyStrip "B" ≠ "" ∧ ("LB" : String) ≠ ""
      ∧ (FeedFetcher.init 0 0 1).cutoff_date ≤ resolveTimestamp none none 0) := by
  decide

/-- Claim C7 (amended): every survivor has a non-empty (already-trimmed)
headline and a non-empty raw link — the link is not trimmed, so a
whitespace-only link survives; and among the first `max_entries` entries of
a feed, an entry is dropped with the recency filter passing exactly when
its trimmed headline is empty or its raw link is empty. -/
theorem survivors_C7_amended (f : FeedFetcher) (now : Int) (name : String)
    (entries : List Entry) :
    (∀ a ∈ (f.fetch_single_feed now (.success entries) name).2,
        a.title ≠ "" ∧ a.link ≠ ""
          ∧ ∃ e ∈ entries, a.title = pyStrip e.title ∧ a.link = e.link)
    ∧ (∀ e ∈ entries.take f.max_entries, (pyStrip e.title = "" ∨ e.link = "") →
        f.processEntry now name e = none)
    ∧ (∀ e ∈ entries.take f.max_entries, pyStrip e.title ≠ "" → e.link ≠ "" →
        f.cutoff_date ≤ resolveTimestamp e.published_parsed e.updated_parsed now →
        ∃ a ∈ (f.fetch_single_feed now (.success entries) name).2,
          a.title = pyStrip e.title ∧ a.link = e.link) := by
  refine ⟨?_, ?_, ?_⟩
  · intro a ha
    obtain ⟨e, he, hpe⟩ := (mem_fetch_single_feed_snd f now name entries a).mp ha
    obtain ⟨ht, hl, -, rfl⟩ := (processEntry_eq_some f now name e a).mp hpe
    exact ⟨ht, hl, e, List.mem_of_mem_take he, rfl, rfl⟩
  · intro e _ hcond
    simp only [FeedFetcher.processEntry]
    rw [if_pos hcond]
  · intro e he ht hl hcut
    exact ⟨_, (mem_fetch_single_feed_snd f now name entries _).mpr
      ⟨e, he, (processEntry_eq_some f now name e _).mpr ⟨ht, hl, hcut, rfl⟩⟩, rfl, rfl⟩

/-- Witness for the amended C7: a concrete entry with surrounding
whitespace in the title survives with the trimmed title and the raw link. -/
theorem survivors_C7_amended_witness :
    ∃ a ∈ ((FeedFetcher.init 0 0 100).fetch_single_feed 0
        (.success [{ title := " A ", link := "L" }]) "s").2,
      a.title = pyStrip " A " ∧ a.link = "L" :=
  (survivors_C7_amended (FeedFetcher.init 0 0 100) 0 "s"
      [{ title := " A ", link := "L" }]).2.2
    { title := " A ", link := "L" } (by decide) (by decide) (by decide) (by decide)

/-! ### Deduplication lemmas -/

theorem dedupGo_nodup_and_unseen (h : String → String) (seen : List String)
    (l : List NewsItem) :
    ((dedupGo h seen l).map (fun a => h a.headline)).Nodup
    ∧ ∀ a ∈ dedupGo h seen l, h a.headline ∉ seen := by
  induction l generalizing seen with
  | nil => simp [dedupGo]
  | cons x xs ih =>
    by_cases hx : h x.headline ∈ seen
    · simp only [dedupGo, if_pos hx]
      exact ⟨(ih seen).1, fun a ha => (ih seen).2 a ha⟩
    · simp only [dedupGo, if_neg hx, List.map_cons, List.nodup_cons]
      obtain ⟨ihn, ihs⟩ := ih (h x.headline :: seen)
      refine ⟨⟨?_, ihn⟩, ?_⟩
      · intro hmem
        obtain ⟨a, ha, hha⟩ := List.mem_map.mp hmem
        exact ihs a ha (hha ▸ List.mem_cons_self _ _)
      · intro a ha
        rcases List.mem_cons.mp ha with rfl | ha'
        · exact hx
        · exact fun hmem => ihs a ha' (List.mem_cons_of_mem _ hmem)

theorem mem_dedupGo_hashes (h : String → String) (seen : List String)
    (l : List NewsItem) (s : String) :
    s ∈ (dedupGo h seen l).map (fun a => h a.headline) ↔
      s ∈ l.map (fun a => h a.headline) ∧ s ∉ seen := by
  induction l generalizing seen with
  | nil => simp [dedupGo]
  | cons x xs ih =>
    by_cases hx : h x.headline ∈ seen
    · simp only [dedupGo, if_pos hx, List.map_cons, List.mem_cons]
      rw [ih seen]
      constructor
      · rintro ⟨hs, hns⟩
        exact ⟨Or.inr hs, hns⟩
      · rintro ⟨hs | hs, hns⟩
        · exact absurd (hs ▸ hx) hns
        · exact ⟨hs, hns⟩
    · simp only [dedupGo, if_neg hx, List.map_cons, List.mem_cons]
      rw [ih (h x.headline :: seen)]
      simp only [List.mem_cons, not_or]
      constructor
      · rintro (rfl | ⟨hs, hns1, hns2⟩)
        · exact ⟨Or.inl rfl, hx⟩
        · exact ⟨Or.inr hs, hns2⟩
      · rintro ⟨hs | hs, hns⟩
        · exact Or.inl hs
        · by_cases hsx : s = h x.headline
          · exact Or.inl hsx
          · exact Or.inr ⟨hs, hsx, hns⟩

theorem dedupGo_length (h : String → String) (seen : List String) (l : List NewsItem) :
    (dedupGo h seen l).length
      = ((l.map (fun a => h a.headline)).toFinset \ seen.toFinset).card := by
  induction l generalizing seen with
  | nil => simp [dedupGo]
  | cons x xs ih =>
    by_cases hx : h x.headline ∈ seen
    · simp only [dedupGo, if_pos hx]
      rw [ih seen, List.map_cons, List.toFinset_cons,
        Finset.insert_sdiff_of_mem _ (List.mem_toFinset.mpr hx)]
    · simp only [dedupGo, if_neg hx, List.length_cons]
      rw [ih (h x.headline :: seen), List.map_cons, List.toFinset_cons,
        List.toFinset_cons,
        Finset.insert_sdiff_of_not_mem _ (by simpa using hx)]
      have herase : (xs.map (fun a => h a.headline)).toFinset \
            insert (h x.headline) seen.toFinset
          = ((xs.map (fun a => h a.headline)).toFinset \ seen.toFinset).erase
              (h x.headline) := by
        ext t
        simp only [Finset.mem_sdiff, Finset.mem_erase, Finset.mem_insert, not_or]
        tauto
      rw [herase]
      by_cases hmem : h x.headline
          ∈ (xs.map (fun a => h a.headline)).toFinset \ seen.toFinset
      · rw [Finset.insert_eq_self.mpr hmem]
        exact Finset.card_erase_add_one hmem
      · rw [Finset.erase_eq_of_not_mem hmem,
          Finset.card_insert_of_not_mem hmem]

theorem dedupGo_eq_self (h : String → String) (seen : List String) (l : List NewsItem)
    (hn : (l.map (fun a => h a.headline)).Nodup)
    (hs : ∀ a ∈ l, h a.headline ∉ seen) :
    dedupGo h seen l = l := by
  induction l generalizing seen with
  | nil => rfl
  | cons x xs ih =>
    simp only [List.map_cons, List.nodup_cons] at hn
    simp only [dedupGo, if_neg (hs x (List.mem_cons_self x xs))]
    congr 1
    refine ih _ hn.2 ?_
    intro a ha
    simp only [List.mem_cons, not_or]
    constructor
    · intro he
      exact hn.1 (he ▸ List.mem_map_of_mem (fun a => h a.headline) ha)
    · exact hs a (List.mem_cons_of_mem _ ha)

/-- Claim C6: deduplication is idempotent, and across any permutation of
the input it produces the same fingerprint set and the same cardinality. -/
theorem dedup_idem_perm_C6 (h : String → String) (l l' : List NewsItem)
    (hperm : l.Perm l') :
    deduplicate_dataframe h (deduplicate_dataframe h l) = deduplicate_dataframe h l
    ∧ (∀ s, s ∈ (deduplicate_dataframe h l').map (fun a => h a.headline)
        ↔ s ∈ (deduplicate_dataframe h l).map (fun a => h a.headline))
    ∧ (deduplicate_dataframe h l').length = (deduplicate_dataframe h l).length := by
  refine ⟨?_, ?_, ?_⟩
  · exact dedupGo_eq_self h [] _ (dedupGo_nodup_and_unseen h [] l).1
      (fun a _ => List.not_mem_nil _)
  · intro s
    show s ∈ (dedupGo h [] l').map _ ↔ s ∈ (dedupGo h [] l).map _
    rw [mem_dedupGo_hashes, mem_dedupGo_hashes]
    rw [(hperm.map (fun a => h a.headline)).mem_iff]
  · show (dedupGo h [] l').length = (dedupGo h [] l).length
    rw [dedupGo_length, dedupGo_length,
      List.toFinset_eq_of_perm _ _ (hperm.map (fun a => h a.headline))]

/-- Witness for C6: a concrete two-element list with duplicate headlines
and its reversal. -/
theorem dedup_idem_perm_C6_witness :
    deduplicate_dataframe id (deduplicate_dataframe id
        [⟨"t", "A", "l1", 1, "s", ""⟩, ⟨"t", "A", "l2", 2, "s", ""⟩])
      = deduplicate_dataframe id
          [⟨"t", "A", "l1", 1, "s", ""⟩, ⟨"t", "A", "l2", 2, "s", ""⟩]
    ∧ (deduplicate_dataframe id
        [⟨"t", "A", "l2", 2, "s", ""⟩, ⟨"t", "A", "l1", 1, "s", ""⟩]).length
      = (deduplicate_dataframe id
          [⟨"t", "A", "l1", 1, "s", ""⟩, ⟨"t", "A", "l2", 2, "s", ""⟩]).length := by
  have h := dedup_idem_perm_C6 id
    [⟨"t", "A", "l1", 1, "s", ""⟩, ⟨"t", "A", "l2", 2, "s", ""⟩]
    [⟨"t", "A", "l2", 2, "s", ""⟩, ⟨"t", "A", "l1", 1, "s", ""⟩]
    (List.Perm.swap _ _ _)
  exact ⟨h.1, h.2.2⟩

theorem aggregate_pairwise_hashNe (h : String → String) (items : List NewsItem) :
    (aggregate h items).Pairwise (fun a b => h a.headline ≠ h b.headline) := by
  unfold aggregate
  split
  · exact List.Pairwise.nil
  · have hnd := (dedupGo_nodup_and_unseen h [] items).1
    have hpw : (deduplicate_dataframe h items).Pairwise
        (fun a b => h a.headline ≠ h b.headline) := List.pairwise_map.mp hnd
    have hperm := List.perm_insertionSort dateDesc (deduplicate_dataframe h items)
    exact (hperm.pairwise_iff (fun hab he => hab he.symm)).mpr hpw

/-- Claim C5: every pipeline invocation's aggregate result has pairwise
distinct content fingerprints and is sorted by timestamp descending, for
every input (the empty source lists yield the empty result, not an error). -/
theorem aggregate_unique_sorted_C5 (h : String → String) (now0 now days : Int)
    (teams : List String) (general : List (FetchOutcome × String))
    (teamFeeds : List (String × List FetchOutcome)) :
    (fetch_all_news h now0 now days teams general teamFeeds).Pairwise
        (fun a b => h a.headline ≠ h b.headline)
    ∧ (fetch_all_news h now0 now days teams general teamFeeds).Pairwise dateDesc
    ∧ fetch_all_news h now0 now days teams [] [] = [] := by
  refine ⟨aggregate_pairwise_hashNe h _, aggregate_sorted h _, rfl⟩

theorem dedupGo_headlines_congr (h : String → String) :
    ∀ (seen : List String) (l l' : List NewsItem),
      l.map NewsItem.headline = l'.map NewsItem.headline →
      (dedupGo h seen l).map NewsItem.headline
        = (dedupGo h seen l').map NewsItem.headline := by
  intro seen l
  induction l generalizing seen with
  | nil =>
    intro l' hmap
    cases l' with
    | nil => rfl
    | cons y ys => simp at hmap
  | cons x xs ih =>
    intro l' hmap
    cases l' with
    | nil => simp at hmap
    | cons y ys =>
      simp only [List.map_cons, List.cons.injEq] at hmap
      obtain ⟨hxy, hrest⟩ := hmap
      by_cases hx : h x.headline ∈ seen
      · rw [dedupGo, dedupGo, if_pos hx,
          if_pos (show h y.headline ∈ seen by rw [← hxy]; exact hx)]
        exact ih seen ys hrest
      · rw [dedupGo, dedupGo, if_neg hx,
          if_neg (show h y.headline ∉ seen by rw [← hxy]; exact hx)]
        simp only [List.map_cons]
        rw [hxy]
        exact congrArg (List.cons y.headline) (ih _ ys hrest)

/-- Claim C10: the dedup fingerprint is a digest of the headline alone:
the aggregate result never contains two rows with the same headline (even
if their links, sources, dates or summaries differ), and the dedup
decisions depend only on the headline column. -/
theorem headline_dedup_C10 (h : String → String) :
    (∀ items, ((aggregate h items).map NewsItem.headline).Nodup)
    ∧ (∀ l l', l.map NewsItem.headline = l'.map NewsItem.headline →
        (deduplicate_dataframe h l).map NewsItem.headline
          = (deduplicate_dataframe h l').map NewsItem.headline) := by
  constructor
  · intro items
    have hpw := (aggregate_pairwise_hashNe h items).imp
      (fun hab he => hab (congrArg h he))
    exact List.pairwise_map.mpr hpw
  · intro l l' hmap
    exact dedupGo_headlines_congr h [] l l' hmap

/-- Witness for C10: two records identical in headline but nowhere else
dedup to the same headline sequence. -/
theorem headline_dedup_C10_witness :
    (deduplicate_dataframe id [⟨"t", "A", "l1", 1, "s", ""⟩]).map NewsItem.headline
      = (deduplicate_dataframe id [⟨"u", "A", "l2", 2, "r", "x"⟩]).map NewsItem.headline :=
  (headline_dedup_C10 id).2 _ _ (by decide)

/-! ### Keyword-based team extraction -/

theorem find?_eq_of_first {α : Type} (p : α → Bool) :
    ∀ (l : List α) (i : Nat) (hi : i < l.length),
      p (l.get ⟨i, hi⟩) = true →
      (∀ j (hj : j < i), p (l.get ⟨j, Nat.lt_trans hj hi⟩) = false) →
      l.find? p = some (l.get ⟨i, hi⟩) := by
  intro l
  induction l with
  | nil =>
    intro i hi
    simp at hi
  | cons x xs ih =>
    intro i hi hp hfirst
    cases i with
    | zero => exact List.find?_cons_of_pos _ hp
    | succ n =>
      have hx : p x = false := hfirst 0 (Nat.succ_pos n)
      rw [List.find?_cons_of_neg _ (by simp [hx])]
      exact ih n (Nat.lt_of_succ_lt_succ hi) hp
        (fun j hj => hfirst (j + 1) (Nat.succ_lt_succ hj))

/-- Claim C8: for a headline without a pre-assigned team, the ordered
`team_keywords` table is scanned and the first-listed keyword occurring
anywhere in the upper-cased headline wins, regardless of where it occurs in
the text; when no keyword and no configured team name occurs, the sentinel
`'NFL General'` is returned. -/
theorem team_extraction_C8 (text : String) (teams : List String) :
    (∀ i (hi : i < team_keywords.length),
        occursIn (team_keywords.get ⟨i, hi⟩).1 (pyUpper text) = true →
        (∀ j (hj : j < i),
          occursIn (team_keywords.get ⟨j, Nat.lt_trans hj hi⟩).1 (pyUpper text) = false) →
        extract_team_from_title text teams = (team_keywords.get ⟨i, hi⟩).2)
    ∧ ((∀ kw ∈ team_keywords, occursIn kw.1 (pyUpper text) = false) →
        (∀ t ∈ teams, occursIn (pyUpper t) (pyUpper text) = false) →
        extract_team_from_title text teams = "NFL General") := by
  constructor
  · intro i hi hp hfirst
    simp only [extract_team_from_title]
    rw [find?_eq_of_first (fun kw => occursIn kw.1 (pyUpper text)) team_keywords i hi hp
      hfirst]
  · intro hkw hteams
    simp only [extract_team_from_title]
    rw [List.find?_eq_none.mpr (fun kw hmem => by simp [hkw kw hmem]),
      List.find?_eq_none.mpr (fun t hmem => by simp [hteams t hmem])]

/-- Witness for C8: in `"Bucs edge Patriots in overtime"` the keyword
`BUCS` occurs earlier in the text, but `PATRIOTS` (index 21 of the table)
is listed before `BUCS` (index 30), so the Patriots win; and a headline
matching nothing yields the sentinel. -/
theorem team_extraction_C8_witness :
    extract_team_from_title "Bucs edge Patriots in overtime" [] = "New England Patriots"
    ∧ occursIn "BUCS" (pyUpper "Bucs edge Patriots in overtime") = true
    ∧ team_keywords.get ⟨21, by decide⟩ = ("PATRIOTS", "New England Patriots")
    ∧ team_keywords.get ⟨30, by decide⟩ = ("BUCS", "Tampa Bay Buccaneers")
    ∧ extract_team_from_title "nothing to see here" ["Gators"] = "NFL General" := by
  refine ⟨?_, by decide, by decide, by decide, ?_⟩
  · exact ((team_extraction_C8 "Bucs edge Patriots in overtime" []).1 21 (by decide)
      (by decide) (by decide)).trans (by decide)
  · exact (team_extraction_C8 "nothing to see here" ["Gators"]).2
      (by decide) (by decide)

/-! ### `clean_html` properties -/

theorem splitWsAux_words :
    ∀ (l acc : List Char), (∀ c ∈ acc, isPySpace c = false) →
      ∀ w ∈ splitWsAux l acc, w ≠ [] ∧ ∀ c ∈ w, isPySpace c = false := by
  intro l
  induction l with
  | nil =>
    intro acc hacc w hw
    simp only [splitWsAux] at hw
    split at hw
    · simp at hw
    · rename_i hne
      simp only [List.mem_singleton] at hw
      subst hw
      refine ⟨?_, fun c hc => hacc c (List.mem_reverse.mp hc)⟩
      intro h0
      exact hne (by simp [List.isEmpty_iff, ← List.reverse_eq_nil_iff, h0])
  | cons c rest ih =>
    intro acc hacc w hw
    simp only [splitWsAux] at hw
    by_cases hsp : isPySpace c
    · rw [if_pos hsp] at hw
      split at hw
      · exact ih [] (by simp) w hw
      · rename_i hne
        rcases List.mem_cons.mp hw with rfl | hw'
        · refine ⟨?_, fun d hd => hacc d (List.mem_reverse.mp hd)⟩
          intro h0
          exact hne (by simp [List.isEmpty_iff, ← List.reverse_eq_nil_iff, h0])
        · exact ih [] (by simp) w hw'
    · rw [if_neg hsp] at hw
      refine ih (c :: acc) ?_ w hw
      intro d hd
      rcases List.mem_cons.mp hd with rfl | hd'
      · exact Bool.not_eq_true _ ▸ Bool.of_not_eq_true hsp
      · exact hacc d hd'

theorem chain'_of_no_space :
    ∀ (l : List Char), (∀ c ∈ l, isPySpace c = false) →
      l.Chain' (fun a b => isPySpace a = false ∨ isPySpace b = false) := by
  intro l
  induction l with
  | nil => exact fun _ => List.chain'_nil
  | cons c rest ih =>
    intro hl
    cases rest with
    | nil => exact List.chain'_singleton c
    | cons d rest' =>
      refine List.chain'_cons.mpr ⟨?_, ih ?_⟩
      · exact Or.inl (hl c (List.mem_cons_self _ _))
      · exact fun x hx => hl x (List.mem_cons_of_mem _ hx)

theorem joinSpaceL_ne_nil :
    ∀ (ws : List (List Char)), ws ≠ [] → (∀ w ∈ ws, w ≠ []) →
      joinSpaceL ws ≠ [] := by
  intro ws
  match ws with
  | [] => exact fun h _ => absurd rfl h
  | [w] => exact fun _ hw => hw w (List.mem_singleton_self w)
  | w :: w' :: ws' =>
    intro _ hw
    show w ++ ' ' :: joinSpaceL (w' :: ws') ≠ []
    simp

theorem joinSpace_props :
    ∀ (ws : List (List Char)),
      (∀ w ∈ ws, w ≠ [] ∧ ∀ c ∈ w, isPySpace c = false) →
      (∀ c ∈ joinSpaceL ws, isPySpace c = true → c = ' ')
      ∧ (joinSpaceL ws).Chain' (fun a b => isPySpace a = false ∨ isPySpace b = false)
      ∧ (∀ c, (joinSpaceL ws).head? = some c → isPySpace c = false)
      ∧ (∀ c, (joinSpaceL ws).getLast? = some c → isPySpace c = false) := by
  intro ws
  induction ws with
  | nil =>
    intro _
    refine ⟨?_, List.chain'_nil, ?_, ?_⟩ <;> simp [joinSpaceL]
  | cons w ws' ih =>
    intro hws
    have hw := hws w (List.mem_cons_self _ _)
    cases ws' with
    | nil =>
      show (∀ c ∈ w, _) ∧ w.Chain' _ ∧ (∀ c, w.head? = some c → _)
        ∧ (∀ c, w.getLast? = some c → _)
      refine ⟨?_, chain'_of_no_space w hw.2, ?_, ?_⟩
      · intro c hc hsp
        rw [hw.2 c hc] at hsp
        cases hsp
      · intro c hc
        exact hw.2 c (List.mem_of_mem_head? hc)
      · intro c hc
        exact hw.2 c (List.mem_of_mem_getLast? hc)
    | cons w' ws'' =>
      obtain ⟨iha, ihb, ihc, ihd⟩ := ih (fun v hv => hws v (List.mem_cons_of_mem _ hv))
      show (∀ c ∈ w ++ ' ' :: joinSpaceL (w' :: ws''), _)
        ∧ (w ++ ' ' :: joinSpaceL (w' :: ws'')).Chain' _
        ∧ (∀ c, (w ++ ' ' :: joinSpaceL (w' :: ws'')).head? = some c → _)
        ∧ (∀ c, (w ++ ' ' :: joinSpaceL (w' :: ws'')).getLast? = some c → _)
      refine ⟨?_, ?_, ?_, ?_⟩
      · intro c hc hsp
        rcases List.mem_append.mp hc with hc' | hc'
        · rw [hw.2 c hc'] at hsp
          cases hsp
        · rcases List.mem_cons.mp hc' with rfl | hc''
          · rfl
          · exact iha c hc'' hsp
      · refine List.chain'_append.mpr
          ⟨chain'_of_no_space w hw.2, ?_, ?_⟩
        · refine List.chain'_cons'.mpr ⟨?_, ihb⟩
          intro b hb
          exact Or.inr (ihc b hb)
        · intro x _ y hy
          simp only [List.head?_cons, Option.mem_def, Option.some.injEq] at hy
          subst hy
          exact Or.inl (hw.2 x (List.mem_of_mem_getLast? ‹_›))
      · intro c hc
        match w, hw.1 with
        | a :: as, _ =>
          simp only [List.cons_append, List.head?_cons, Option.some.injEq] at hc
          rw [← hc]
          exact hw.2 a (List.mem_cons_self _ _)
      · intro c hc
        rw [List.getLast?_append_cons] at hc
        have hjoin : joinSpaceL (w' :: ws'') ≠ [] :=
          joinSpaceL_ne_nil (w' :: ws'') (by simp)
            (fun v hv => (hws v (List.mem_cons_of_mem _ hv)).1)
        match hj : joinSpaceL (w' :: ws''), hjoin with
        | b :: bs, _ =>
          rw [hj] at hc
          have hc' : (b :: bs).getLast? = some c := by
            rw [← List.getLast?_append_cons [' '] b bs]
            exact hc
          refine ihd c ?_
          rw [hj]
          exact hc'

theorem collapseWsL_props (l : List Char) :
    (∀ c ∈ collapseWsL l, isPySpace c = true → c = ' ')
    ∧ (collapseWsL l).Chain' (fun a b => isPySpace a = false ∨ isPySpace b = false)
    ∧ (∀ c, (collapseWsL l).head? = some c → isPySpace c = false)
    ∧ (∀ c, (collapseWsL l).getLast? = some c → isPySpace c = false) :=
  joinSpace_props (splitWsAux l []) (splitWsAux_words l [] (by simp))

theorem truncated_props (t : List Char)
    (ha : ∀ c ∈ t, isPySpace c = true → c = ' ')
    (hb : t.Chain' (fun a b => isPySpace a = false ∨ isPySpace b = false))
    (hc : ∀ c, t.head? = some c → isPySpace c = false) (n : Nat) :
    (∀ c ∈ t.take n ++ ('.' :: '.' :: '.' :: []), isPySpace c = true → c = ' ')
    ∧ (t.take n ++ ('.' :: '.' :: '.' :: [])).Chain'
        (fun a b => isPySpace a = false ∨ isPySpace b = false)
    ∧ (∀ c, (t.take n ++ ('.' :: '.' :: '.' :: [])).head? = some c → isPySpace c = false)
    ∧ (∀ c, (t.take n ++ ('.' :: '.' :: '.' :: [])).getLast? = some c →
        isPySpace c = false) := by
  refine ⟨?_, ?_, ?_, ?_⟩
  · intro c hmem hsp
    rcases List.mem_append.mp hmem with hm | hm
    · exact ha c (List.mem_of_mem_take hm) hsp
    · have : c = '.' := by
        rcases List.mem_cons.mp hm with h | h
        · exact h
        · rcases List.mem_cons.mp h with h' | h'
          · exact h'
          · exact List.mem_singleton.mp h'
      subst this
      cases hsp
  · refine List.chain'_append.mpr ⟨hb.take n, ?_, ?_⟩
    · exact chain'_of_no_space _ (by decide)
    · intro x _ y hy
      simp only [List.head?_cons, Option.mem_def, Option.some.injEq] at hy
      subst hy
      exact Or.inr (by decide)
  · intro c hcc
    rw [List.head?_append] at hcc
    cases hh : (t.take n).head? with
    | none =>
      rw [hh] at hcc
      simp only [Option.none_or, List.head?_cons, Option.some.injEq] at hcc
      subst hcc
      decide
    | some a =>
      rw [hh] at hcc
      have ha' : a = c := by simpa [Option.or] using hcc
      subst ha'
      refine hc a ?_
      cases t with
      | nil => simp at hh
      | cons b t' =>
        cases n with
        | zero => simp at hh
        | succ m =>
          simp only [List.take_succ_cons, List.head?_cons, Option.some.injEq] at hh
          simp [List.head?_cons, hh]
  · intro c hcc
    rw [List.getLast?_append_cons] at hcc
    have h' : '.' = c := by simpa using hcc
    subst h'
    decide

theorem clean_html_cases (s : String) (hs : s ≠ "") :
    clean_html s
      = if 300 < (collapseWsL (stripTagsL s.data)).length
        then ⟨(collapseWsL (stripTagsL s.data)).take 300 ++ ('.' :: '.' :: '.' :: [])⟩
        else ⟨collapseWsL (stripTagsL s.data)⟩ := by
  simp [clean_html, hs]

set_option maxRecDepth 10000 in
/-- Claim C9: `clean_html` removes tag matches, collapses whitespace runs
to single spaces with no leading or trailing whitespace, and truncates to
a 300-character budget with a trailing `'...'` appended exactly when the
cleaned text exceeds 300 characters: the spec's markup example computes to
`"Player is OK"`, a 500-character plain-ASCII input yields exactly 300
characters of content plus the marker, the output never exceeds 303
characters, and every output has no leading or trailing whitespace, no two
adjacent whitespace characters, and only plain spaces as whitespace. -/
theorem clean_html_C9 :
    clean_html "<p>Player <b>is</b> OK</p>" = "Player is OK"
    ∧ (clean_html (String.mk (List.replicate 500 'a'))).data
        = List.replicate 300 'a' ++ ('.' :: '.' :: '.' :: [])
    ∧ (∀ s : String,
        (300 < (collapseWsL (stripTagsL s.data)).length →
          (clean_html s).data
            = (collapseWsL (stripTagsL s.data)).take 300 ++ ('.' :: '.' :: '.' :: [])
          ∧ (clean_html s).data.length = 303)
        ∧ ((collapseWsL (stripTagsL s.data)).length ≤ 300 →
          (clean_html s).data = collapseWsL (stripTagsL s.data))
        ∧ (clean_html s).data.length ≤ 303)
    ∧ (∀ s : String,
        (∀ c ∈ (clean_html s).data, isPySpace c = true → c = ' ')
        ∧ (clean_html s).data.Chain'
            (fun a b => isPySpace a = false ∨ isPySpace b = false)
        ∧ (∀ c, (clean_html s).data.head? = some c → isPySpace c = false)
        ∧ (∀ c, (clean_html s).data.getLast? = some c → isPySpace c = false)) := by
  refine ⟨by decide, by decide, ?_, ?_⟩
  · intro s
    by_cases hs : s = ""
    · subst hs
      decide
    · rw [clean_html_cases s hs]
      by_cases hlen : 300 < (collapseWsL (stripTagsL s.data)).length
      · rw [if_pos hlen]
        refine ⟨fun _ => ⟨rfl, ?_⟩, fun hle => absurd hlen (not_lt.mpr hle), ?_⟩
        · show ((collapseWsL (stripTagsL s.data)).take 300
            ++ ('.' :: '.' :: '.' :: [])).length = 303
          rw [List.length_append, List.length_take]
          simp only [List.length_cons, List.length_nil]
          omega
        · show ((collapseWsL (stripTagsL s.data)).take 300
            ++ ('.' :: '.' :: '.' :: [])).length ≤ 303
          rw [List.length_append, List.length_take]
          simp only [List.length_cons, List.length_nil]
          omega
      · rw [if_neg hlen]
        exact ⟨fun hgt => absurd hgt hlen, fun _ => rfl, by
          show (collapseWsL (stripTagsL s.data)).length ≤ 303
          omega⟩
  · intro s
    by_cases hs : s = ""
    · subst hs
      refine ⟨?_, ?_, ?_, ?_⟩ <;> simp [clean_html, List.chain'_nil]
    · obtain ⟨ha, hb, hc, hd⟩ := collapseWsL_props (stripTagsL s.data)
      rw [clean_html_cases s hs]
      by_cases hlen : 300 < (collapseWsL (stripTagsL s.data)).length
      · rw [if_pos hlen]
        exact truncated_props _ ha hb hc 300
      · rw [if_neg hlen]
        exact ⟨ha, hb, hc, hd⟩

set_option maxRecDepth 10000 in
/-- Witness for C9 at the 500-character plain-ASCII input. -/
theorem clean_html_C9_witness :
    (clean_html (String.mk (List.replicate 500 'a'))).data
        = (collapseWsL (stripTagsL (String.mk (List.replicate 500 'a')).data)).take 300
          ++ ('.' :: '.' :: '.' :: [])
    ∧ (clean_html (String.mk (List.replicate 500 'a'))).data.length = 303 :=
  (clean_html_C9.2.2.1 (String.mk (List.replicate 500 'a'))).1 (by decide)
